import Mathlib

set_option maxRecDepth 4000

namespace NLTU

/-! Shallow embedding of the two modules of the repository: `app.py` (the
FastAPI service) and `sync_schedule.py` (the file-sync job). Python strings
are modelled as `String`, optional cell values as `Option String`, pandas
rows as explicit row structures, dicts as insertion-ordered association
lists, and exceptions as `Except` values. -/

/-- Python truthiness of an optional cell value: `None` and the empty string
are falsy, every other string is truthy. -/
def truthy : Option String → Bool
  | none => false
  | some s => s != ""

/-- Python `str.strip()`: drop whitespace from both ends (`Char.isWhitespace`
covers the ASCII whitespace occurring in timetable cells). -/
def pyStrip (s : String) : String :=
  String.mk (((s.data.dropWhile Char.isWhitespace).reverse.dropWhile Char.isWhitespace).reverse)

/-- Python `str.strip(c)` for a one-character strip set: drop every copy of
`c` from both ends. -/
def stripChar (c : Char) (s : String) : String :=
  String.mk (((s.data.dropWhile (· == c)).reverse.dropWhile (· == c)).reverse)

/-- Python `str.split(sep)` for a one-character separator, over the character
list (no collapsing of repeated separators, empty pieces kept). -/
def splitCharList (sep : Char) : List Char → List (List Char)
  | [] => [[]]
  | c :: rest =>
    match splitCharList sep rest with
    | [] => [[]]
    | r :: rs => if c = sep then [] :: r :: rs else (c :: r) :: rs

/-- Python `str.split(sep)` for a one-character separator. -/
def splitOnChar (sep : Char) (s : String) : List String :=
  (splitCharList sep s.data).map String.mk

/-- Python `str.rsplit(maxsplit=1)` with the default whitespace separator:
trailing whitespace is skipped, the last whitespace-free token is split off,
and the remainder keeps its leading (but loses its trailing) whitespace; a
string with no separator yields one token, an empty or all-whitespace string
yields none. -/
def pyRsplit1 (s : String) : List String :=
  match s.data.reverse.dropWhile Char.isWhitespace with
  | [] => []
  | c :: cs =>
    let tok := (c :: cs).takeWhile (fun ch => !ch.isWhitespace)
    let rest := ((c :: cs).drop tok.length).dropWhile Char.isWhitespace
    if rest.isEmpty then [String.mk tok.reverse]
    else [String.mk rest.reverse, String.mk tok.reverse]

/-- Whether `pat` is an initial segment of `cs`. -/
def leadsWith : List Char → List Char → Bool
  | [], _ => true
  | _ :: _, [] => false
  | p :: ps, c :: cs => p == c && leadsWith ps cs

/-- Python `str.replace(pat, rep)`: replace every non-overlapping occurrence,
scanning left to right. The extra `Nat` is fuel (callers pass the text's
length) so the recursion is structural and kernel-evaluable; each step
consumes at least one character, so the fuel never runs out. -/
def replaceFuel (pat rep : List Char) : Nat → List Char → List Char
  | _, [] => []
  | 0, cs => cs
  | fuel + 1, c :: rest =>
    if !pat.isEmpty && leadsWith pat (c :: rest) then
      rep ++ replaceFuel pat rep fuel ((c :: rest).drop pat.length)
    else
      c :: replaceFuel pat rep fuel rest

/-- Python `str.replace(pat, rep)`. -/
def pyReplace (s pat rep : String) : String :=
  String.mk (replaceFuel pat.data rep.data s.data.length s.data)

/-- Python `list.index` (the callers only look up members of the list; a
missing element, which raises `ValueError` in Python, maps to the length). -/
def pyIndex (a : String) : List String → Nat
  | [] => 0
  | x :: rest => if x = a then 0 else pyIndex a rest + 1

/-- The five start times shared by `app.py` and `sync_schedule.py`. -/
def EVENT_START_TIMES : List String :=
  ["08:30", "10:20", "12:10", "14:30", "16:20"]

/-- The five end times shared by `app.py` and `sync_schedule.py`. -/
def EVENT_END_TIMES : List String :=
  ["10:05", "11:55", "13:45", "16:05", "17:35"]

/-- The parity slot `int(week != "ч")` used by both schedule builders: index 0
(the odd-week / numerator slot) when the time-suffix token is the numerator
marker "ч", and index 1 (the even-week / denominator slot) for every other
token. -/
def parityIdx (week : String) : Nat :=
  if week = "ч" then 0 else 1

/-- Insertion-ordered update of a `defaultdict`-style association list: the
first entry carrying the key is updated in place; a missing key is appended
at the end with value `f dflt`. -/
def updAssoc {β : Type} (k : String) (dflt : β) (f : β → β) :
    List (String × β) → List (String × β)
  | [] => [(k, f dflt)]
  | (k0, v) :: rest =>
    if k0 = k then (k0, f v) :: rest else (k0, v) :: updAssoc k dflt f rest

/-- Python `event and event.strip()` on an optional cell value: `None` stays
`None`, the empty string stays itself, any other string is stripped. -/
def pyAndStrip : Option String → Option String
  | none => none
  | some s => if s = "" then some "" else some (pyStrip s)

/-- Keep the members of `xs` that are neither in `base` nor duplicates of an
earlier kept member: the first-occurrence deduplication of `xs` relative to
`base`, preserving order. -/
def dedupExcl (base : List String) : List String → List String
  | [] => []
  | x :: xs => if x ∈ base then dedupExcl base xs else x :: dedupExcl (base ++ [x]) xs

/-- The exceptions the engine can raise: `InvalidEventFormatError` (carrying
the text interpolated into its message) and the plain `ValueError` coming
from tuple unpacking in `parse_subject`. -/
inductive PyError where
  | invalidEventFormat : String → PyError
  | valueError : PyError
deriving DecidableEq

deriving instance DecidableEq for Except

end NLTU

namespace NLTU.Sync

/-- The day labels of `sync_schedule.py` (Ukrainian). -/
def DAYS : List String :=
  ["Понеділок", "Вівторок", "Середа", "Четвер", "Пятниця"]

/-- `all_same` from `sync_schedule.py`: every item equals the first (an empty
list passes vacuously, as Python's lazy generator never evaluates
`items[0]`). -/
def all_same (items : List (Option String)) : Bool :=
  items.all (fun it => it == items.headD none)

/-- The sub-event dicts `normalize_subevents` builds: `{"type": "empty"}`,
`{"type": "single", "event": v}` or `{"type": "multiple", "events": vs}`. -/
inductive NormSub where
  | empty : NormSub
  | single : Option String → NormSub
  | multiple : List (Option String) → NormSub
deriving DecidableEq

/-- The slot dicts `normalize_event` builds: `single`, `vertical` (a stack of
single/empty markers) or `horizontal` (an odd side and an even side). -/
inductive NormEvent where
  | single : Option String → NormEvent
  | vertical : List NormSub → NormEvent
  | horizontal : NormSub → NormSub → NormEvent
deriving DecidableEq

/-- `normalize_subevents` from `sync_schedule.py`. (On the empty list Python
would raise an `IndexError` at `events[0]`; the embedding totalises with
`headD`, and every theorem about it restricts to non-empty vectors, which is
what the builder supplies: one value per sub-column, K ≥ 1.) -/
def normalize_subevents (events : List (Option String)) : NormSub :=
  if all_same events then
    if truthy (events.headD none) = false then .empty
    else .single (events.headD none)
  else .multiple events

/-- `normalize_event` from `sync_schedule.py`: the slot reconciler over the
odd-week and even-week value vectors. -/
def normalize_event (odd even : List (Option String)) : Option NormEvent :=
  if ∀ v ∈ odd ++ even, v = none then none
  else if odd = even then
    if all_same odd then some (.single (odd.headD none))
    else some (.vertical (odd.map fun val => if truthy val then .single val else .empty))
  else some (.horizontal (normalize_subevents odd) (normalize_subevents even))

/-- Whether a reconciled side is the collapsed single-sub-event form. -/
def isSingleSub : NormSub → Bool
  | .single _ => true
  | _ => false

/-- One position of the suffix regex `(\/|-)\d+.?$` of `get_group_name`: the
character list starts with "/" or "-", followed by one or more digits and at
most one further arbitrary character, reaching the end of the string. -/
def suffixMatch (cs : List Char) : Bool :=
  match cs with
  | [] => false
  | c :: rest =>
    (c == '/' || c == '-') &&
      (!rest.isEmpty && rest.all Char.isDigit ||
        decide (2 ≤ rest.length) && rest.dropLast.all Char.isDigit)

/-- The spec's reading of the same rule: "/" or "-", one or more digits, and
an optional trailing non-digit confirmation character. -/
def specSuffixMatch (cs : List Char) : Bool :=
  match cs with
  | [] => false
  | c :: rest =>
    (c == '/' || c == '-') &&
      (!rest.isEmpty && rest.all Char.isDigit ||
        decide (2 ≤ rest.length) && rest.dropLast.all Char.isDigit &&
          !(rest.getLastD ' ').isDigit)

/-- Drop everything from the leftmost position whose suffix satisfies `p`
(`re.sub(..., "", s)` for an end-anchored pattern: at most one match, chosen
leftmost). -/
def scanStrip (p : List Char → Bool) : List Char → List Char
  | [] => []
  | c :: rest => if p (c :: rest) then [] else c :: scanStrip p rest

/-- `get_group_name` from `sync_schedule.py`: `re.sub(r"(\/|-)\d+.?$", "", s)`. -/
def get_group_name (s : String) : String :=
  String.mk (scanStrip suffixMatch s.data)

/-- The group name as the spec words it (optional trailing non-digit
confirmation character). -/
def specGroupName (s : String) : String :=
  String.mk (scanStrip specSuffixMatch s.data)

/-- `get_groups` from `sync_schedule.py`: group the sub-column headers by
their derived group name in a `defaultdict(list)`, keeping insertion order. -/
def get_groups (cols : List String) : List (String × List String) :=
  cols.foldl (fun acc sub => updAssoc (get_group_name sub) [] (· ++ [sub]) acc) []

/-- One row of the grid `get_grouped_schedule` walks: the day label, the
start-time label, the week-parity token, and the cell values of the
projected sub-entity columns, in column order. -/
structure Row where
  day : String
  time : String
  week : String
  cells : List (Option String)

/-- The nested `defaultdict` accumulation of `get_grouped_schedule`: for each
row, every projected cell value is appended (stripped, `None` kept) to the
odd or even list of `days[day][time]` as the row's parity token directs. -/
def buildDays (rows : List Row) :
    List (String × List (String × (List (Option String) × List (Option String)))) :=
  rows.foldl
    (fun days r =>
      updAssoc r.day [] (fun times =>
        updAssoc r.time ([], []) (fun p =>
          r.cells.foldl (fun q e =>
            if parityIdx r.week = 0 then (q.1 ++ [pyAndStrip e], q.2)
            else (q.1, q.2 ++ [pyAndStrip e])) p) times) days)
    []

/-- One emitted slot of the sync builder. -/
structure Slot where
  time : String
  order : Nat
  event : NormEvent
deriving DecidableEq

/-- One emitted day of the sync builder. -/
structure DaySchedule where
  day : String
  events : List Slot
deriving DecidableEq

/-- `get_grouped_schedule` from `sync_schedule.py`: reconcile every
accumulated slot, keep the slots whose reconciliation is not `None`, and keep
the days with at least one kept slot, all in insertion (first-occurrence)
order. -/
def get_grouped_schedule (rows : List Row) : List DaySchedule :=
  (buildDays rows).filterMap fun p =>
    let evs := p.2.filterMap fun q =>
      (normalize_event q.2.1 q.2.2).map fun ev =>
        { time := q.1 ++ " - " ++ EVENT_END_TIMES.getD (pyIndex q.1 EVENT_START_TIMES) ""
          order := pyIndex q.1 EVENT_START_TIMES + 1
          event := ev }
    if evs.isEmpty then none else some { day := p.1, events := evs }

end NLTU.Sync

namespace NLTU.App

/-- The day identifiers of `app.py`, in fixed weekday order. -/
def DAYS : List String :=
  ["monday", "tuesday", "wednesday", "thursday", "friday"]

/-- The raw (Ukrainian) day labels of `app.py`. -/
def RAW_DAYS : List String :=
  ["Понеділок", "Вівторок", "Середа", "Четвер", "Пятниця"]

/-- The fixed enum `SubEventType` of `app.py`. -/
def SubEventTypes : List String :=
  ["лекція", "лабораторна", "практичні", "адаптаційний курс"]

/-- The mapping `dict(zip(RAW_DAYS, DAYS))` as a lookup (a key outside
`RAW_DAYS`, a `KeyError` in Python, maps to the empty string; the builder
only looks up labels produced from `RAW_DAYS`). -/
def RAW_DAY_TO_DAY (d : String) : String :=
  ((((RAW_DAYS.zip DAYS).filter (fun p => p.1 == d)).map (fun p => p.2)).headD "")

/-- The `SUB_EVENT_NORMALIZERS` substitutions of `parse_event`, applied in
dict insertion order. -/
def normalizeAbbreviations (event : String) : String :=
  pyReplace (pyReplace (pyReplace event "лек." "лекція") "лаб." "лабораторна")
    "практ." "практичні"

/-- `parse_subject` from `app.py`: `subject.rsplit(maxsplit=1)` unpacked into
two variables (one or zero parts raise a plain `ValueError`), the type
stripped of surrounding double quotes and then of surrounding underscores. -/
def parse_subject (subject : String) : Except PyError (String × String) :=
  match pyRsplit1 subject with
  | [n, t] => .ok (n, stripChar '_' (stripChar '"' t))
  | _ => .error .valueError

/-- The record `parse_event` returns: the three recognized shapes fill
different subsets of the keys, so the optional ones are `Option`. -/
structure ParsedEvent where
  groups : Option (List String) := none
  name : String
  type : String
  tutor : Option String := none
  location : Option String := none
deriving DecidableEq

/-- The line list `parse_event` matches on: abbreviations expanded, the whole
text stripped, split on newlines, every line stripped. -/
def eventParts (event : String) : List String :=
  (splitOnChar '\n' (pyStrip (normalizeAbbreviations event))).map pyStrip

/-- `parse_event` from `app.py`. The fallback arm raises
`InvalidEventFormatError` whose message interpolates the (already
abbreviation-expanded) event text; the error payload records that text. -/
def parse_event (event : String) : Except PyError ParsedEvent :=
  match eventParts event with
  | [a, b, c] =>
    if c = "адаптаційний курс" then
      .ok { groups := some (splitOnChar ',' a), name := "Адаптаційний курс",
            type := "адаптаційний курс" }
    else
      match parse_subject a with
      | .error e => .error e
      | .ok (n, t) =>
        .ok { name := n, type := t, tutor := some (pyStrip b),
              location := some (pyStrip c) }
  | [g, s, t, l] =>
    match parse_subject s with
    | .error e => .error e
    | .ok (n, ty) =>
      .ok { groups := some (splitOnChar ',' g), name := n, type := ty,
            tutor := some (pyStrip t), location := some (pyStrip l) }
  | _ => .error (.invalidEventFormat (normalizeAbbreviations event))

/-- The event dicts `normalize_event` of `app.py` returns: `{"simple": p}` or
`{"nominator": n, "denominator": d}`. -/
inductive Event where
  | simple : ParsedEvent → Event
  | split : Option ParsedEvent → Option ParsedEvent → Event
deriving DecidableEq

/-- Python `v and parse_event(v)` on an optional value: a falsy value is kept
unparsed (the empty string, excluded upstream by `df.replace`, is modelled as
absent), a truthy one is parsed and any parse failure propagates. -/
def pyAndParse : Option String → Except PyError (Option ParsedEvent)
  | none => .ok none
  | some s => if s = "" then .ok none else (parse_event s).map some

/-- `normalize_event` from `app.py`: the single-column slot reconciler. -/
def normalize_event (odd even : Option String) : Except PyError (Option Event) :=
  if truthy odd = false ∧ truthy even = false then .ok none
  else if odd = even then
    match parse_event (odd.getD "") with
    | .error e => .error e
    | .ok p => .ok (some (.simple p))
  else
    match pyAndParse odd with
    | .error e => .error e
    | .ok n =>
      match pyAndParse even with
      | .error e => .error e
      | .ok d => .ok (some (.split n d))

/-- The per-sub-event half of `prefill_missed_groups`: a sub-event whose
groups are `None` or empty receives the owning column's label. -/
def prefillSub (group : String) (e : ParsedEvent) : ParsedEvent :=
  if e.groups = none ∨ e.groups = some [] then { e with groups := some [group] } else e

/-- `prefill_missed_groups` from `app.py`, over the present sub-events. -/
def prefill_missed_groups (group : String) : Event → Event
  | .simple e => .simple (prefillSub group e)
  | .split n d => .split (n.map (prefillSub group)) (d.map (prefillSub group))

/-- One row of the grid `get_group_schedule` walks, already projected to one
group column. -/
structure Row where
  day : String
  time : String
  week : String
  cell : Option String

/-- The nested `defaultdict` accumulation of `get_group_schedule`: the cell
value is assigned (overwriting) into the odd or even slot of
`days[day][time]` as the row's parity token directs. -/
def buildDays (rows : List Row) :
    List (String × List (String × (Option String × Option String))) :=
  rows.foldl
    (fun days r =>
      updAssoc r.day [] (fun times =>
        updAssoc r.time (none, none) (fun p =>
          if parityIdx r.week = 0 then (pyAndStrip r.cell, p.2)
          else (p.1, pyAndStrip r.cell)) times) days)
    []

/-- One value of the `day_events` dict of `get_group_schedule`. -/
structure Slot where
  startTime : String
  endTime : String
  order : Nat
  event : Event
deriving DecidableEq

/-- The `day_events` comprehension of `get_group_schedule`: reconcile each
slot in insertion order, keep those whose reconciliation is truthy, and stop
at the first parse failure (Python raises out of the comprehension). -/
def buildDayEvents (group : String) :
    List (String × (Option String × Option String)) →
      Except PyError (List (String × Slot))
  | [] => .ok []
  | (start, p) :: rest =>
    match normalize_event p.1 p.2 with
    | .error e => .error e
    | .ok none => buildDayEvents group rest
    | .ok (some ev) =>
      match buildDayEvents group rest with
      | .error e => .error e
      | .ok tail =>
        .ok ((start,
          { startTime := start
            endTime := EVENT_END_TIMES.getD (pyIndex start EVENT_START_TIMES) ""
            order := pyIndex start EVENT_START_TIMES + 1
            event := prefill_missed_groups group ev }) :: tail)

/-- The outer loop of `get_group_schedule`: keep the days whose event dict is
non-empty, keyed by the translated day identifier, in insertion order. -/
def buildSchedule (group : String) :
    List (String × List (String × (Option String × Option String))) →
      Except PyError (List (String × List (String × Slot)))
  | [] => .ok []
  | (day, times) :: rest =>
    match buildDayEvents group times with
    | .error e => .error e
    | .ok evs =>
      match buildSchedule group rest with
      | .error e => .error e
      | .ok tail => .ok (if evs.isEmpty then tail else (RAW_DAY_TO_DAY day, evs) :: tail)

/-- `get_group_schedule` from `app.py`, for one group's projected rows. -/
def get_group_schedule (rows : List Row) (group : String) :
    Except PyError (List (String × List (String × Slot))) :=
  buildSchedule group (buildDays rows)

/-- The `schedules` comprehension of the `/schedules` endpoint: one schedule
per group; the first raised exception aborts the whole run. -/
def get_schedule :
    List (String × List Row) →
      Except PyError (List (String × List (String × List (String × Slot))))
  | [] => .ok []
  | (g, rows) :: rest =>
    match get_group_schedule rows g with
    | .error e => .error e
    | .ok s =>
      match get_schedule rest with
      | .error e => .error e
      | .ok tail => .ok ((g, s) :: tail)

/-- The `app.add_exception_handler` registration: only
`InvalidEventFormatError` is mapped to the 500 "Invalid event format"
response; a plain `ValueError` has no registered handler. -/
def handleInvalidFormat : PyError → Option (Nat × String)
  | .invalidEventFormat _ => some (500, "Invalid event format, please contact the developer")
  | .valueError => none

/-- The `DayToEvents` validator `{k: d[k] for k in sorted(d, key=DAYS.index)}`
on an insertion-ordered dict: for a dict whose keys are distinct members of
`DAYS` (the only dicts the endpoint produces), sorting the keys by their
index lists them in `DAYS` order. -/
def sortDays {α : Type} (d : List (String × α)) : List (String × α) :=
  (DAYS.map (fun day => d.filter (fun p => p.1 == day))).flatten

/-- The pydantic model `SubEventSchema` of `app.py`. -/
structure SubEventSchema where
  type : String
  name : Option String := none
  location : Option String := none
  tutor : Option String := none
  groups : Option (List String) := none
deriving DecidableEq

/-- The pydantic model `EventSchema` of `app.py` (before its model
validator runs). -/
structure EventSchema where
  startTime : String
  endTime : String
  order : Nat
  nominator : Option SubEventSchema := none
  denominator : Option SubEventSchema := none
  simple : Option SubEventSchema := none
deriving DecidableEq

/-- Python `groups.extend(g for g in xs if g not in groups)`: the generator
is consumed lazily, so each element is checked against the list as grown so
far. -/
def extendDedup (acc xs : List String) : List String :=
  xs.foldl (fun a g => if g ∈ a then a else a ++ [g]) acc

/-- The `__validate_subevents__` model validator of `EventSchema`: when
`simple` is present, collect the nominator's groups (verbatim) and then the
denominator's groups (each skipped when already collected), clear `nominator`
and `denominator`, and, when anything was collected, append to the simple
sub-event's groups those collected labels not already present there. -/
def validate_subevents (event : EventSchema) : EventSchema :=
  match event.simple with
  | none => event
  | some s =>
    let groups1 : List String :=
      match event.nominator with
      | some n => n.groups.getD []
      | none => []
    let groups2 : List String :=
      match event.denominator with
      | some d => extendDedup groups1 (d.groups.getD [])
      | none => groups1
    let cleared := { event with nominator := none, denominator := none }
    if groups2.isEmpty then cleared
    else
      let current := s.groups.getD []
      { cleared with
        simple := some
          { s with groups := some (current ++ groups2.filter (fun g => decide (g ∉ current))) } }

end NLTU.App

namespace NLTU

/-! Theorems. First a few small facts about the reconciler's helpers, then
one theorem (with witness or counterexample where called for) per claim. -/

theorem all_same_iff (items : List (Option String)) :
    Sync.all_same items = true ↔ ∀ it ∈ items, it = items.headD none := by
  simp [Sync.all_same, List.all_eq_true]

theorem all_same_of_all_none {l : List (Option String)} (h : ∀ v ∈ l, v = none) :
    Sync.all_same l = true := by
  rcases l with _ | ⟨a, rest⟩
  · rfl
  · rw [all_same_iff]
    intro it hit
    rw [h it hit, List.headD_cons, h a (by simp)]

theorem subevents_empty_heads {side : List (Option String)}
    (h : Sync.normalize_subevents side = Sync.NormSub.empty) :
    Sync.all_same side = true ∧ truthy (side.headD none) = false := by
  unfold Sync.normalize_subevents at h
  split at h
  · split at h
    · exact ⟨by assumption, by assumption⟩
    · cases h
  · cases h

theorem all_none_of_empty_side {side : List (Option String)} (hs : side ≠ [])
    (hv : ∀ v ∈ side, v ≠ some "") (hsame : Sync.all_same side = true)
    (ht : truthy (side.headD none) = false) : ∀ v ∈ side, v = none := by
  rcases side with _ | ⟨c, rest⟩
  · cases hs rfl
  · have hc : c = none := by
      rcases c with _ | s
      · rfl
      · have hce : s = "" := by simpa [truthy] using ht
        exact absurd (hce ▸ rfl) (hv (some s) (by simp))
    intro v hvm
    have := (all_same_iff _).mp hsame v hvm
    simpa [hc] using this

/-- Claim C1: when the odd-week value vector equals the even-week value
vector element-wise, the sync reconciler never returns the horizontal
variant; when moreover all values are identical and not all absent it returns
the single variant built from that one text, and when they are not all
identical it returns the vertical variant with one entry per sub-column in
column order, absent entries becoming empty markers. The app reconciler
likewise never returns its nominator/denominator form on equal inputs. -/
theorem reconcile_equal_weeks_no_horizontal (odd even : List (Option String))
    (heq : odd = even) :
    (∀ a b, Sync.normalize_event odd even ≠ some (Sync.NormEvent.horizontal a b)) ∧
    (Sync.all_same odd = true → ¬(∀ v ∈ odd, v = none) →
      ∃ s, odd.headD none = some s ∧
        Sync.normalize_event odd even = some (Sync.NormEvent.single (some s))) ∧
    (Sync.all_same odd = false →
      Sync.normalize_event odd even =
        some (Sync.NormEvent.vertical
          (odd.map fun val =>
            if truthy val then Sync.NormSub.single val else Sync.NormSub.empty))) ∧
    (∀ (o : Option String) (n d : Option App.ParsedEvent),
      App.normalize_event o o ≠ Except.ok (some (App.Event.split n d))) := by
  subst heq
  refine ⟨?_, ?_, ?_, ?_⟩
  · intro a b hcontra
    unfold Sync.normalize_event at hcontra
    by_cases h1 : ∀ v ∈ odd ++ odd, v = none
    · rw [if_pos h1] at hcontra
      cases hcontra
    · rw [if_neg h1, if_pos rfl] at hcontra
      by_cases h2 : Sync.all_same odd = true
      · rw [if_pos h2] at hcontra
        cases hcontra
      · rw [if_neg h2] at hcontra
        cases hcontra
  · intro hsame hnotnone
    have h1 : ¬ ∀ v ∈ odd ++ odd, v = none := by
      intro h
      exact hnotnone fun v hv => h v (List.mem_append.mpr (Or.inl hv))
    obtain ⟨v, hvm, hvne⟩ : ∃ v ∈ odd, v ≠ none := by
      by_contra hno
      push_neg at hno
      exact hnotnone hno
    have hv2 : v = odd.headD none := (all_same_iff odd).mp hsame v hvm
    have hne : odd.headD none ≠ none := hv2 ▸ hvne
    obtain ⟨s, hs⟩ := Option.ne_none_iff_exists'.mp hne
    refine ⟨s, hs, ?_⟩
    unfold Sync.normalize_event
    rw [if_neg h1, if_pos rfl, if_pos hsame, hs]
  · intro hsame
    have h1 : ¬ ∀ v ∈ odd ++ odd, v = none := by
      intro h
      have hall := all_same_of_all_none fun v hv => h v (List.mem_append.mpr (Or.inl hv))
      rw [hall] at hsame
      cases hsame
    unfold Sync.normalize_event
    rw [if_neg h1, if_pos rfl, if_neg (by rw [hsame]; exact Bool.false_ne_true)]
  · intro o n d hcontra
    unfold App.normalize_event at hcontra
    split at hcontra
    · cases hcontra
    · rw [if_pos rfl] at hcontra
      rcases hp : App.parse_event (o.getD "") with e | p <;>
        rw [hp] at hcontra <;> simp at hcontra

/-- Claim C1 witness: the theorem applied to the equal one-column vectors
`[some "x"]`, `[some "x"]`, whose values are all identical and not absent. -/
theorem reconcile_equal_weeks_no_horizontal_witness :
    ∃ s, ([some "x"] : List (Option String)).headD none = some s ∧
      Sync.normalize_event [some "x"] [some "x"] =
        some (Sync.NormEvent.single (some s)) :=
  (reconcile_equal_weeks_no_horizontal [some "x"] [some "x"] rfl).2.1
    (by decide) (by decide)

/-- Claim C2 counterexample: with odd values all absent and even values all
present, the reconciler returns the horizontal variant whose odd side is the
empty marker, although all values on that side are equal to each other — so a
side is not "collapsed to a single sub-event exactly when all K values on
that side are equal": an all-absent side yields the empty marker instead. -/
theorem reconcile_diff_weeks_collapse_cex :
    Sync.all_same [none, none] = true ∧
    Sync.normalize_event [none, none] [some "a", some "a"] =
      some (Sync.NormEvent.horizontal Sync.NormSub.empty
        (Sync.NormSub.single (some "a"))) ∧
    Sync.isSingleSub Sync.NormSub.empty = false := by decide

/-- Claim C2 (amended): for equal-length non-empty vectors of values that are
absent or non-empty (as the grid supplies), when the odd vector differs from
the even vector the reconciler returns the horizontal variant; its two sides
are never both the empty marker; and each side is the empty marker when its
values are all equal and absent, a collapsed single sub-event when all equal
and present, and one entry per sub-column (the multiple form) otherwise. -/
theorem reconcile_diff_weeks_horizontal (odd even : List (Option String))
    (hlen : odd.length = even.length) (hne : odd ≠ even) (h0 : odd ≠ [])
    (hv : ∀ v ∈ odd ++ even, v ≠ some "") :
    Sync.normalize_event odd even =
      some (Sync.NormEvent.horizontal (Sync.normalize_subevents odd)
        (Sync.normalize_subevents even)) ∧
    ¬(Sync.normalize_subevents odd = Sync.NormSub.empty ∧
      Sync.normalize_subevents even = Sync.NormSub.empty) ∧
    (∀ side ∈ [odd, even],
      (Sync.all_same side = true → truthy (side.headD none) = true →
        Sync.normalize_subevents side = Sync.NormSub.single (side.headD none)) ∧
      (Sync.all_same side = true → truthy (side.headD none) = false →
        Sync.normalize_subevents side = Sync.NormSub.empty) ∧
      (Sync.all_same side = false →
        Sync.normalize_subevents side = Sync.NormSub.multiple side)) := by
  have h1 : ¬ ∀ v ∈ odd ++ even, v = none := by
    intro hall
    apply hne
    have ho : odd = List.replicate odd.length none :=
      List.eq_replicate_iff.mpr ⟨rfl, fun b hb => hall b (List.mem_append.mpr (Or.inl hb))⟩
    have he : even = List.replicate even.length none :=
      List.eq_replicate_iff.mpr ⟨rfl, fun b hb => hall b (List.mem_append.mpr (Or.inr hb))⟩
    rw [ho, he, hlen]
  refine ⟨?_, ?_, ?_⟩
  · unfold Sync.normalize_event
    rw [if_neg h1, if_neg hne]
  · rintro ⟨ho, he⟩
    obtain ⟨hso, hto⟩ := subevents_empty_heads ho
    obtain ⟨hse, hte⟩ := subevents_empty_heads he
    have hne0 : even ≠ [] := by
      intro hcontra
      apply h0
      rw [hcontra] at hlen
      exact List.eq_nil_of_length_eq_zero hlen
    have hallo := all_none_of_empty_side h0
      (fun v hvm => hv v (List.mem_append.mpr (Or.inl hvm))) hso hto
    have halle := all_none_of_empty_side hne0
      (fun v hvm => hv v (List.mem_append.mpr (Or.inr hvm))) hse hte
    exact h1 fun v hvm => (List.mem_append.mp hvm).elim (hallo v) (halle v)
  · intro side _
    refine ⟨?_, ?_, ?_⟩
    · intro hsame htr
      unfold Sync.normalize_subevents
      rw [if_pos hsame, if_neg (by rw [htr]; exact Bool.noConfusion)]
    · intro hsame htr
      unfold Sync.normalize_subevents
      rw [if_pos hsame, if_pos htr]
    · intro hsame
      unfold Sync.normalize_subevents
      rw [if_neg (by rw [hsame]; exact Bool.false_ne_true)]

/-- Claim C2 witness: the theorem applied to the one-column vectors
`[some "a"]`, `[some "b"]`, which differ, giving the horizontal variant. -/
theorem reconcile_diff_weeks_horizontal_witness :
    Sync.normalize_event [some "a"] [some "b"] =
      some (Sync.NormEvent.horizontal (Sync.normalize_subevents [some "a"])
        (Sync.normalize_subevents [some "b"])) :=
  (reconcile_diff_weeks_horizontal [some "a"] [some "b"] rfl (by decide)
    (by decide) (by decide)).1

/-- Claim C3: the sync reconciler returns `None` exactly when every value in
both the odd and even vectors is absent, and the app reconciler (whose
inputs, per the grid abstraction, are absent or non-empty) returns a
successful `None` exactly when both its values are absent — the caller then
drops the slot. -/
theorem reconcile_none_iff_all_absent :
    (∀ odd even : List (Option String),
      Sync.normalize_event odd even = none ↔ ∀ v ∈ odd ++ even, v = none) ∧
    (∀ o e : Option String, o ≠ some "" → e ≠ some "" →
      (App.normalize_event o e = Except.ok none ↔ o = none ∧ e = none)) := by
  constructor
  · intro odd even
    constructor
    · intro h
      by_contra hno
      unfold Sync.normalize_event at h
      rw [if_neg hno] at h
      by_cases h2 : odd = even
      · rw [if_pos h2] at h
        by_cases h3 : Sync.all_same odd = true
        · rw [if_pos h3] at h
          cases h
        · rw [if_neg h3] at h
          cases h
      · rw [if_neg h2] at h
        cases h
    · intro h
      unfold Sync.normalize_event
      rw [if_pos h]
  · intro o e ho he
    constructor
    · intro h
      unfold App.normalize_event at h
      by_cases h1 : truthy o = false ∧ truthy e = false
      · constructor
        · rcases o with _ | s
          · rfl
          · have hs : s = "" := by simpa [truthy] using h1.1
            exact absurd (by rw [hs]) ho
        · rcases e with _ | s
          · rfl
          · have hs : s = "" := by simpa [truthy] using h1.2
            exact absurd (by rw [hs]) he
      · exfalso
        rw [if_neg h1] at h
        by_cases h2 : o = e
        · rw [if_pos h2] at h
          rcases hp : App.parse_event (o.getD "") with err | p <;>
            rw [hp] at h <;> cases h
        · rw [if_neg h2] at h
          rcases hn : App.pyAndParse o with err | n
          · rw [hn] at h
            cases h
          · rcases hd : App.pyAndParse e with err | d <;>
              rw [hn, hd] at h <;> cases h
    · rintro ⟨rfl, rfl⟩
      unfold App.normalize_event
      rw [if_pos ⟨rfl, rfl⟩]

/-- Claim C3 witness: the theorem applied to two absent values. -/
theorem reconcile_none_iff_all_absent_witness :
    App.normalize_event none none = Except.ok none :=
  (reconcile_none_iff_all_absent.2 none none (by decide) (by decide)).mpr ⟨rfl, rfl⟩

/-- Claim C6 counterexample: both "a" and "b" — two distinct tokens, so not
both equal to any one fixed single-character even marker — are classified
into the even slot (index 1), not the odd one. The builders' classifier
special-cases the odd marker "ч" and defaults to even, not the other way
around. -/
theorem parity_classification_cex :
    parityIdx "a" = 1 ∧ parityIdx "b" = 1 ∧ ("a" : String) ≠ "b" := by decide

/-- Claim C6 (amended): a grid row's parity is classified as odd (slot index
0) exactly when its time-suffix token equals the fixed single-character
numerator marker "ч"; every other token yields even parity (slot index 1). -/
theorem parity_classification (w : String) :
    (parityIdx w = 0 ↔ w = "ч") ∧ (parityIdx w = 1 ↔ w ≠ "ч") := by
  unfold parityIdx
  by_cases h : w = "ч" <;> simp [h]

/-- Claim C6 witness: the theorem applied to the denominator token "з", which
is classified even. -/
theorem parity_classification_witness : parityIdx "з" = 1 :=
  (parity_classification "з").2.mpr (by decide)

/-- Claim C10: on the 3-line text "Матан\nПроцах\nа.4", whose subject line is
a single whitespace-free token, `rsplit` yields one part, the two-variable
unpacking fails with a plain `ValueError` rather than
`InvalidEventFormatError`, and the registered malformed-format exception
handler does not cover it. -/
theorem parse_subject_value_error_escape :
    App.parse_event "Матан\nПроцах\nа.4" = Except.error PyError.valueError ∧
    (App.eventParts "Матан\nПроцах\nа.4").length = 3 ∧
    pyRsplit1 "Матан" = ["Матан"] ∧
    App.handleInvalidFormat PyError.valueError = none ∧
    (∀ s, PyError.valueError ≠ PyError.invalidEventFormat s) := by
  refine ⟨by decide, by decide, by decide, rfl, fun s h => PyError.noConfusion h⟩

/-- Claim C4 counterexample: "g\nMath xyz\nT\nL" splits into exactly four
trimmed lines and parses successfully, yet the extracted type "xyz" is not a
member of the fixed enum — `parse_event` performs no enum check (only the
later pydantic model validation does). -/
theorem parse_four_lines_cex :
    (App.eventParts "g\nMath xyz\nT\nL").length = 4 ∧
    App.parse_event "g\nMath xyz\nT\nL" = Except.ok
      { groups := some ["g"], name := "Math", type := "xyz",
        tutor := some "T", location := some "L" } ∧
    ¬("xyz" ∈ App.SubEventTypes) := by
  refine ⟨by decide, by decide, by decide⟩

/-- Claim C4 (amended): for every cell text that, after abbreviation
expansion, splits into exactly four trimmed lines whose second line rsplits
into two parts, `parse` returns the record with groups = line 1 split on
commas, name and type from line 2 by splitting off the last
whitespace-separated token as the type (with surrounding quotes and then
underscores stripped), tutor = line 3 and location = line 4; the type is
whatever token results, its membership in the fixed enum being enforced only
by the later model validation. -/
theorem parse_four_lines (text nm ty : String)
    (h4 : (App.eventParts text).length = 4)
    (hsub : pyRsplit1 ((App.eventParts text).getD 1 "") = [nm, ty]) :
    App.parse_event text = Except.ok
      { groups := some (splitOnChar ',' ((App.eventParts text).getD 0 "")),
        name := nm,
        type := stripChar '_' (stripChar '"' ty),
        tutor := some (pyStrip ((App.eventParts text).getD 2 "")),
        location := some (pyStrip ((App.eventParts text).getD 3 "")) } := by
  obtain ⟨g, s, t, l, hps⟩ : ∃ g s t l, App.eventParts text = [g, s, t, l] := by
    generalize hp : App.eventParts text = ps at h4
    rcases ps with _ | ⟨g, ps⟩
    · exact absurd h4 (by simp)
    rcases ps with _ | ⟨s, ps⟩
    · exact absurd h4 (by simp)
    rcases ps with _ | ⟨t, ps⟩
    · exact absurd h4 (by simp)
    rcases ps with _ | ⟨l, ps⟩
    · exact absurd h4 (by simp)
    rcases ps with _ | ⟨m, ps⟩
    · exact ⟨g, s, t, l, rfl⟩
    · exact absurd h4 (by simp)
  have e1 : (App.eventParts text).getD 1 "" = s := by rw [hps]; rfl
  rw [e1] at hsub
  have hps2 : App.parse_subject s = Except.ok (nm, stripChar '_' (stripChar '"' ty)) := by
    unfold App.parse_subject
    rw [hsub]
  unfold App.parse_event
  rw [hps]
  dsimp only
  rw [hps2]
  simp

/-- Claim C4 witness: the theorem applied to a four-line text with an
abbreviated lecture marker on its subject line. -/
theorem parse_four_lines_witness :
    App.parse_event "г1,г2\nМатан лек.\nПроцах\nа.4 к.А" = Except.ok
      { groups := some ["г1", "г2"], name := "Матан", type := "лекція",
        tutor := some "Процах", location := some "а.4 к.А" } := by
  have h := parse_four_lines "г1,г2\nМатан лек.\nПроцах\nа.4 к.А" "Матан" "лекція"
    (by decide) (by decide)
  exact h.trans (by decide)

/-- Claim C5 counterexample: the two-line text "а лек.\nб" fails with the
invalid-format error, but the error carries the abbreviation-expanded text
"а лекція\nб", not the original text. -/
theorem parse_invalid_format_cex :
    App.parse_event "а лек.\nб" =
      Except.error (PyError.invalidEventFormat "а лекція\nб") ∧
    ("а лекція\nб" : String) ≠ "а лек.\nб" :=
  ⟨by decide, by decide⟩

/-- Claim C5 (amended): a non-empty cell text whose line shape matches none
of the recognized forms makes `parse` fail with the invalid-format error
carrying the abbreviation-expanded text; that error maps to the registered
500 malformed-data response, and a failure in any group's schedule aborts the
whole run, so no entity's schedule is returned. -/
theorem parse_invalid_format_fatal :
    (∀ text, (App.eventParts text).length ≠ 3 → (App.eventParts text).length ≠ 4 →
      App.parse_event text =
        Except.error (PyError.invalidEventFormat (App.normalizeAbbreviations text))) ∧
    (∀ s, App.handleInvalidFormat (PyError.invalidEventFormat s) =
      some (500, "Invalid event format, please contact the developer")) ∧
    (∀ entries : List (String × List App.Row),
      (∃ p ∈ entries, ∃ e, App.get_group_schedule p.2 p.1 = Except.error e) →
      ∃ e, App.get_schedule entries = Except.error e) := by
  refine ⟨?_, fun s => rfl, ?_⟩
  · intro text h3 h4
    unfold App.parse_event
    rcases hps : App.eventParts text with _ | ⟨a, _ | ⟨b, _ | ⟨c, _ | ⟨d, _ | more⟩⟩⟩⟩
    · rfl
    · rfl
    · rfl
    · exact absurd (by rw [hps]; rfl) h3
    · exact absurd (by rw [hps]; rfl) h4
    · rfl
  · intro entries
    induction entries with
    | nil =>
      rintro ⟨p, hp, _⟩
      cases hp
    | cons head rest ih =>
      rintro ⟨p, hp, e, he⟩
      rcases head with ⟨g, rows⟩
      rcases List.mem_cons.mp hp with rfl | hmem
      · refine ⟨e, ?_⟩
        have he2 : App.get_group_schedule rows g = Except.error e := he
        unfold App.get_schedule
        rw [he2]
      · obtain ⟨e2, he2⟩ := ih ⟨p, hmem, e, he⟩
        unfold App.get_schedule
        rcases hg : App.get_group_schedule rows g with err | sched
        · exact ⟨err, rfl⟩
        · refine ⟨e2, ?_⟩
          dsimp only
          rw [he2]

/-- Claim C5 witness: the theorem applied to the two-line text "a\nb". -/
theorem parse_invalid_format_fatal_witness :
    App.parse_event "a\nb" =
      Except.error (PyError.invalidEventFormat (App.normalizeAbbreviations "a\nb")) :=
  parse_invalid_format_fatal.1 "a\nb" (by decide) (by decide)

theorem dedupExcl_nil (base : List String) : dedupExcl base [] = [] := rfl

theorem dedupExcl_cons (base : List String) (x : String) (xs : List String) :
    dedupExcl base (x :: xs) =
      if x ∈ base then dedupExcl base xs else x :: dedupExcl (base ++ [x]) xs := rfl

theorem extendDedup_eq_append (xs base : List String) :
    App.extendDedup base xs = base ++ dedupExcl base xs := by
  induction xs generalizing base with
  | nil => simp [App.extendDedup, dedupExcl_nil]
  | cons x xs ih =>
    rw [dedupExcl_cons]
    by_cases h : x ∈ base
    · have h1 : App.extendDedup base (x :: xs) = App.extendDedup base xs := by
        simp [App.extendDedup, List.foldl_cons, h]
      rw [h1, ih, if_pos h]
    · have h1 : App.extendDedup base (x :: xs) = App.extendDedup (base ++ [x]) xs := by
        simp [App.extendDedup, List.foldl_cons, h]
      rw [h1, ih, if_neg h, List.append_assoc]
      rfl

/-- Claim C9 counterexample: validating an event whose simple sub-event has
no groups and whose nominator's groups are ["A", "A"] leaves the duplicate in
place: the merged groups are ["A", "A"], not the duplicate-free ["A"] the
claim describes (nominator-internal duplicates are never removed). -/
theorem validate_subevents_dedup_cex :
    ((App.validate_subevents
        { startTime := "08:30", endTime := "10:05", order := 1,
          nominator := some { type := "лекція", groups := some ["A", "A"] },
          simple := some { type := "лекція" } }).simple.map
      App.SubEventSchema.groups) = some (some ["A", "A"]) ∧
    dedupExcl [] ["A", "A"] = ["A"] ∧
    (["A", "A"] : List String) ≠ ["A"] := by
  refine ⟨by decide, by decide, by decide⟩

/-- Claim C9 (amended): after model validation of an event whose simple
sub-event is present, nominator and denominator are `None`, and the simple
sub-event's groups are its original groups extended with the collected
labels not already among them, where the collected labels are the
nominator's groups taken verbatim (internal duplicates kept) followed by the
denominator's groups deduplicated against everything collected so far; when
nothing is collected the original groups are left untouched. -/
theorem validate_subevents_spec (e : App.EventSchema) (s : App.SubEventSchema)
    (h : e.simple = some s) :
    (App.validate_subevents e).nominator = none ∧
    (App.validate_subevents e).denominator = none ∧
    (App.validate_subevents e).simple = some
      { s with groups :=
          (let nomG := (e.nominator.map fun n => n.groups.getD []).getD []
           let collected := nomG ++ dedupExcl nomG
             ((e.denominator.map fun d => d.groups.getD []).getD [])
           if collected.isEmpty then s.groups
           else some ((s.groups.getD []) ++
             collected.filter fun g => decide (g ∉ s.groups.getD []))) } := by
  refine ⟨?_, ?_, ?_⟩
  · unfold App.validate_subevents
    rw [h]
    dsimp only
    split <;> rfl
  · unfold App.validate_subevents
    rw [h]
    dsimp only
    split <;> rfl
  · unfold App.validate_subevents
    rcases hn : e.nominator with _ | n <;> rcases hd : e.denominator with _ | d <;>
      (rw [h]
       dsimp only
       simp only [Option.map_some', Option.map_none', Option.getD_some, Option.getD_none,
         dedupExcl_nil, List.append_nil]
       first
         | (simp only [← extendDedup_eq_append]
            split <;> rfl)
         | split <;> rfl)

/-- Claim C9 witness: the theorem applied to an event carrying a nominator
group "B" and simple groups ["A"]; validation merges them to ["A", "B"]. -/
theorem validate_subevents_spec_witness :
    (App.validate_subevents
        { startTime := "08:30", endTime := "10:05", order := 1,
          nominator := some { type := "лекція", groups := some ["B"] },
          simple := some { type := "лекція", groups := some ["A"] } }).simple =
      some { type := "лекція", groups := some ["A", "B"] } := by
  have h := validate_subevents_spec
    { startTime := "08:30", endTime := "10:05", order := 1,
      nominator := some { type := "лекція", groups := some ["B"] },
      simple := some { type := "лекція", groups := some ["A"] } }
    { type := "лекція", groups := some ["A"] } rfl
  exact h.2.2.trans (by decide)

theorem map_fst_filter_key {α : Type} (d : List (String × α)) (day : String) :
    (d.filter (fun p => p.1 == day)).map Prod.fst =
      (d.map Prod.fst).filter (fun k => k == day) := by
  induction d with
  | nil => rfl
  | cons p rest ih =>
    rcases p with ⟨k, v⟩
    by_cases h : (k == day) = true <;> simp [List.filter_cons, h, ih]

theorem filter_eq_of_nodup (l : List String) (a : String) (h : l.Nodup) :
    l.filter (fun k => k == a) = if a ∈ l then [a] else [] := by
  induction l with
  | nil => simp
  | cons x xs ih =>
    rw [List.nodup_cons] at h
    obtain ⟨hx, hxs⟩ := h
    by_cases hxa : x = a
    · subst hxa
      simp [List.filter_cons, ih hxs, hx]
    · simp [List.filter_cons, hxa, Ne.symm hxa, ih hxs]

theorem flatten_singletons (days keys : List String) :
    (days.map (fun day => if day ∈ keys then [day] else [])).flatten =
      days.filter (fun day => decide (day ∈ keys)) := by
  induction days with
  | nil => rfl
  | cons day rest ih =>
    by_cases h : day ∈ keys <;> simp [List.filter_cons, h, ih]

theorem sortDays_keys {α : Type} (d : List (String × α))
    (h : (d.map Prod.fst).Nodup) :
    (App.sortDays d).map Prod.fst =
      App.DAYS.filter (fun day => decide (day ∈ d.map Prod.fst)) := by
  unfold App.sortDays
  rw [List.map_flatten, List.map_map]
  have h1 : (App.DAYS.map (List.map Prod.fst ∘ fun day => d.filter fun p => p.1 == day)) =
      App.DAYS.map fun day => if day ∈ d.map Prod.fst then [day] else [] := by
    apply List.map_congr_left
    intro day _
    show (d.filter (fun p => p.1 == day)).map Prod.fst = _
    rw [map_fst_filter_key, filter_eq_of_nodup _ _ h]
  rw [h1, flatten_singletons]

theorem filter_key_length_le_one {α : Type} (d : List (String × α)) (day : String)
    (h : (d.map Prod.fst).Nodup) : (d.filter (fun p => p.1 == day)).length ≤ 1 := by
  have h2 := congrArg List.length (map_fst_filter_key d day)
  rw [List.length_map] at h2
  rw [h2, filter_eq_of_nodup _ _ h]
  split <;> simp

theorem perm_eq_of_length_le_one {α : Type} {l l2 : List α} (hp : l.Perm l2)
    (h : l.length ≤ 1) : l = l2 := by
  match l, hp, h with
  | [], hp, _ => exact (List.Perm.eq_nil hp.symm).symm
  | [a], hp, _ => exact (List.perm_singleton.mp hp.symm).symm
  | a :: b :: rest, _, h => simp at h

theorem sortDays_perm_invariant {α : Type} (d d2 : List (String × α)) (hp : d.Perm d2)
    (h : (d.map Prod.fst).Nodup) : App.sortDays d = App.sortDays d2 := by
  unfold App.sortDays
  congr 1
  apply List.map_congr_left
  intro day _
  exact perm_eq_of_length_le_one (hp.filter _) (filter_key_length_le_one d day h)

/-- Claim C8 counterexample: the sync builder `get_grouped_schedule` emits
days in first-occurrence row order, not fixed weekday order: a grid whose
Tuesday rows precede its Monday rows yields the day list
["Вівторок", "Понеділок"], and permuting the rows permutes the output. -/
theorem grouped_schedule_day_order_cex :
    (Sync.get_grouped_schedule
        [⟨"Вівторок", "08:30", "ч", [some "X"]⟩, ⟨"Вівторок", "08:30", "з", [some "X"]⟩,
         ⟨"Понеділок", "08:30", "ч", [some "Y"]⟩, ⟨"Понеділок", "08:30", "з", [some "Y"]⟩]).map
      Sync.DaySchedule.day = ["Вівторок", "Понеділок"] ∧
    (Sync.get_grouped_schedule
        [⟨"Понеділок", "08:30", "ч", [some "Y"]⟩, ⟨"Понеділок", "08:30", "з", [some "Y"]⟩,
         ⟨"Вівторок", "08:30", "ч", [some "X"]⟩, ⟨"Вівторок", "08:30", "з", [some "X"]⟩]).map
      Sync.DaySchedule.day = ["Понеділок", "Вівторок"] ∧
    Sync.DAYS.filter (fun day => decide (day ∈ ["Вівторок", "Понеділок"])) =
      ["Понеділок", "Вівторок"] ∧
    (["Вівторок", "Понеділок"] : List String) ≠ ["Понеділок", "Вівторок"] := by
  refine ⟨by decide, by decide, by decide, by decide⟩

/-- Claim C8 (amended): in the app service, the `DayToEvents` validator sorts
the day keys of any schedule dict (distinct keys, as dict keys are) into
fixed weekday order, and its result is invariant under permutation of the
dict entries, so the served day ordering does not depend on input row order;
the sync builder emits only days with at least one retained slot, but in
first-occurrence row order (see the counterexample), fixed weekday order
holding there only because that script generates its own grid rows in fixed
day and slot order. -/
theorem schedule_day_ordering :
    (∀ (α : Type) (d : List (String × α)), (d.map Prod.fst).Nodup →
      (App.sortDays d).map Prod.fst =
        App.DAYS.filter (fun day => decide (day ∈ d.map Prod.fst))) ∧
    (∀ (α : Type) (d d2 : List (String × α)), d.Perm d2 → (d.map Prod.fst).Nodup →
      App.sortDays d = App.sortDays d2) ∧
    (∀ rows : List Sync.Row, ∀ p ∈ Sync.get_grouped_schedule rows, p.events ≠ []) := by
  refine ⟨fun α d h => sortDays_keys d h,
    fun α d d2 hp h => sortDays_perm_invariant d d2 hp h, ?_⟩
  intro rows p hp
  unfold Sync.get_grouped_schedule at hp
  rw [List.mem_filterMap] at hp
  obtain ⟨a, _, ha⟩ := hp
  dsimp only at ha
  split at ha
  · cases ha
  · rename_i hc
    injection ha with ha2
    subst ha2
    intro hnil
    apply hc
    rw [show (a.2.filterMap _) = ([] : List Sync.Slot) from hnil]
    rfl

/-- Claim C8 witness: the sorting validator applied to a two-day dict given
in the wrong order lists its keys in fixed weekday order. -/
theorem schedule_day_ordering_witness :
    (App.sortDays [("tuesday", (1 : Nat)), ("monday", 2)]).map Prod.fst =
      App.DAYS.filter (fun day =>
        decide (day ∈ ([("tuesday", (1 : Nat)), ("monday", 2)].map Prod.fst))) :=
  schedule_day_ordering.1 Nat [("tuesday", 1), ("monday", 2)] (by decide)

theorem suffixMatch_eq_spec (cs : List Char) :
    Sync.suffixMatch cs = Sync.specSuffixMatch cs := by
  rcases cs with _ | ⟨c, rest⟩
  · rfl
  · rcases List.eq_nil_or_concat rest with rfl | ⟨L, b, rfl⟩
    · rfl
    · unfold Sync.suffixMatch Sync.specSuffixMatch
      by_cases hb : b.isDigit = true
      · simp [List.dropLast_concat, List.getLastD_concat, hb, List.all_append,
          Bool.or_comm, Bool.and_comm, Bool.and_assoc, Bool.and_or_distrib_left]
        exact fun h1 h2 _ => ⟨h1, h2⟩
      · simp [List.dropLast_concat, List.getLastD_concat, hb, List.all_append]

theorem scanStrip_congr (p q : List Char → Bool) (h : ∀ cs, p cs = q cs) :
    ∀ cs, Sync.scanStrip p cs = Sync.scanStrip q cs := by
  intro cs
  induction cs with
  | nil => rfl
  | cons c rest ih =>
    unfold Sync.scanStrip
    rw [h (c :: rest), ih]

theorem get_group_name_eq_spec (s : String) :
    Sync.get_group_name s = Sync.specGroupName s := by
  unfold Sync.get_group_name Sync.specGroupName
  rw [scanStrip_congr _ _ suffixMatch_eq_spec]

theorem updAssoc_of_not_mem {β : Type} (k : String) (dflt : β) (f : β → β)
    (d : List (String × β)) (h : ∀ p ∈ d, p.1 ≠ k) :
    updAssoc k dflt f d = d ++ [(k, f dflt)] := by
  induction d with
  | nil => rfl
  | cons p rest ih =>
    rcases p with ⟨k0, v⟩
    unfold updAssoc
    rw [if_neg (h (k0, v) (by simp)), ih (fun q hq => h q (by simp [hq]))]
    rfl

theorem updAssoc_map_mem (K : List String) (F : String → List String)
    (g0 sub : String) (hK : K.Nodup) (hg : g0 ∈ K) :
    updAssoc g0 [] (· ++ [sub]) (K.map fun g => (g, F g)) =
      K.map fun g => (g, if g = g0 then F g ++ [sub] else F g) := by
  induction K with
  | nil => cases hg
  | cons k ks ih =>
    rw [List.nodup_cons] at hK
    obtain ⟨hk, hks⟩ := hK
    by_cases hkg : k = g0
    · subst hkg
      simp only [List.map_cons]
      unfold updAssoc
      rw [if_pos rfl]
      congr 1
      apply List.map_congr_left
      intro g hgks
      rw [if_neg (show ¬ g = k from fun hgk => hk (hgk ▸ hgks))]
    · have hg2 : g0 ∈ ks := by
        rcases List.mem_cons.mp hg with h1 | h1
        · exact absurd h1.symm hkg
        · exact h1
      simp only [List.map_cons]
      unfold updAssoc
      rw [if_neg hkg, ih hks hg2]
      congr 1
      rw [if_neg hkg]

theorem dedupExcl_snoc (xs : List String) (x : String) (base : List String) :
    dedupExcl base (xs ++ [x]) =
      dedupExcl base xs ++ (if x ∈ base ∨ x ∈ dedupExcl base xs then [] else [x]) := by
  induction xs generalizing base with
  | nil => by_cases h : x ∈ base <;> simp [dedupExcl_cons, dedupExcl_nil, h]
  | cons y ys ih =>
    by_cases h : y ∈ base
    · simp only [List.cons_append, dedupExcl_cons, if_pos h]
      exact ih base
    · simp only [List.cons_append, dedupExcl_cons, if_neg h]
      rw [ih (base ++ [y])]
      have hiff : (x ∈ base ++ [y] ∨ x ∈ dedupExcl (base ++ [y]) ys) ↔
          (x ∈ base ∨ x ∈ y :: dedupExcl (base ++ [y]) ys) := by
        simp only [List.mem_append, List.mem_singleton, List.mem_cons]
        tauto
      rw [if_congr hiff rfl rfl]
    
theorem mem_dedupExcl {x : String} (xs base : List String) :
    x ∈ dedupExcl base xs ↔ x ∈ xs ∧ x ∉ base := by
  induction xs generalizing base with
  | nil => simp [dedupExcl_nil]
  | cons y ys ih =>
    rw [dedupExcl_cons]
    by_cases h : y ∈ base
    · rw [if_pos h, ih]
      constructor
      · rintro ⟨h1, h2⟩
        exact ⟨List.mem_cons_of_mem _ h1, h2⟩
      · rintro ⟨h1, h2⟩
        rcases List.mem_cons.mp h1 with rfl | h1
        · exact absurd h h2
        · exact ⟨h1, h2⟩
    · rw [if_neg h]
      constructor
      · intro hx
        rcases List.mem_cons.mp hx with rfl | hx
        · exact ⟨List.mem_cons_self _ _, h⟩
        · obtain ⟨h1, h2⟩ := (ih (base ++ [y])).mp hx
          simp only [List.mem_append, List.mem_singleton, not_or] at h2
          exact ⟨List.mem_cons_of_mem _ h1, h2.1⟩
      · rintro ⟨h1, h2⟩
        rcases List.mem_cons.mp h1 with rfl | h1
        · exact List.mem_cons_self _ _
        · by_cases hxy : x = y
          · subst hxy
            exact List.mem_cons_self _ _
          · refine List.mem_cons_of_mem _ ((ih (base ++ [y])).mpr ⟨h1, ?_⟩)
            simp [List.mem_append, h2, hxy]

theorem dedupExcl_nodup (xs base : List String) : (dedupExcl base xs).Nodup := by
  induction xs generalizing base with
  | nil => simp [dedupExcl_nil]
  | cons y ys ih =>
    rw [dedupExcl_cons]
    by_cases h : y ∈ base
    · rw [if_pos h]
      exact ih base
    · rw [if_neg h]
      rw [List.nodup_cons]
      refine ⟨?_, ih (base ++ [y])⟩
      intro hy
      have hm := (mem_dedupExcl ys (base ++ [y])).mp hy
      exact hm.2 (by simp)

theorem filter_snoc_group (l : List String) (sub g : String) :
    (l ++ [sub]).filter (fun c => Sync.get_group_name c == g) =
      l.filter (fun c => Sync.get_group_name c == g) ++
        (if Sync.get_group_name sub = g then [sub] else []) := by
  rw [List.filter_append]
  congr 1
  simp [List.filter_cons, beq_iff_eq]

theorem get_groups_step (l : List String) (sub : String) :
    updAssoc (Sync.get_group_name sub) [] (· ++ [sub])
      ((dedupExcl [] (l.map Sync.get_group_name)).map
        (fun g => (g, l.filter fun c => Sync.get_group_name c == g))) =
      (dedupExcl [] ((l ++ [sub]).map Sync.get_group_name)).map
        (fun g => (g, (l ++ [sub]).filter fun c => Sync.get_group_name c == g)) := by
  have hmapsnoc : (l ++ [sub]).map Sync.get_group_name =
      l.map Sync.get_group_name ++ [Sync.get_group_name sub] := by
    simp
  by_cases hg : Sync.get_group_name sub ∈ dedupExcl [] (l.map Sync.get_group_name)
  · rw [updAssoc_map_mem _ _ _ _ (dedupExcl_nodup _ _) hg]
    rw [hmapsnoc, dedupExcl_snoc, if_pos (Or.inr hg), List.append_nil]
    apply List.map_congr_left
    intro g hgK
    rw [filter_snoc_group]
    by_cases hgg : g = Sync.get_group_name sub
    · rw [if_pos hgg, if_pos hgg.symm]
    · rw [if_neg hgg, if_neg (fun h => hgg h.symm), List.append_nil]
  · rw [updAssoc_of_not_mem _ _ _ _
      (fun p hp => by
        obtain ⟨g, hgK, rfl⟩ := List.mem_map.mp hp
        exact fun h => hg (h ▸ hgK))]
    rw [hmapsnoc, dedupExcl_snoc,
      if_neg (fun hc => hc.elim (fun h => by cases h) hg)]
    rw [List.map_append]
    congr 1
    · apply List.map_congr_left
      intro g hgK
      rw [filter_snoc_group,
        if_neg (show ¬ Sync.get_group_name sub = g from
          fun h => hg (by rw [h]; exact hgK)),
        List.append_nil]
    · simp only [List.map_cons, List.map_nil]
      have hnotin : Sync.get_group_name sub ∉ l.map Sync.get_group_name := by
        intro hmem
        exact hg ((mem_dedupExcl _ _).mpr ⟨hmem, by simp⟩)
      have hfilter : l.filter
          (fun c => Sync.get_group_name c == Sync.get_group_name sub) = [] := by
        rw [List.filter_eq_nil_iff]
        intro c hc
        simp only [beq_iff_eq]
        exact fun h => hnotin (h ▸ List.mem_map_of_mem Sync.get_group_name hc)
      rw [filter_snoc_group, hfilter, if_pos rfl]

theorem get_groups_go (cols : List String) : ∀ l : List String,
    cols.foldl (fun acc sub => updAssoc (Sync.get_group_name sub) [] (· ++ [sub]) acc)
      ((dedupExcl [] (l.map Sync.get_group_name)).map
        (fun g => (g, l.filter fun c => Sync.get_group_name c == g))) =
      (dedupExcl [] ((l ++ cols).map Sync.get_group_name)).map
        (fun g => (g, (l ++ cols).filter fun c => Sync.get_group_name c == g)) := by
  induction cols with
  | nil => intro l; simp
  | cons sub rest ih =>
    intro l
    rw [List.foldl_cons, get_groups_step l sub]
    have h := ih (l ++ [sub])
    simpa [List.append_assoc] using h

/-- Claim C7 counterexample: with the header sequence ["KN", "KN-1"], the
suffix-less label "KN" does not form its own singleton group: the column
"KN-1" strips to the same derived name, so the group "KN" holds both columns
(size 2, not 1). -/
theorem get_groups_singleton_cex :
    Sync.get_groups ["KN", "KN-1"] = [("KN", ["KN", "KN-1"])] ∧
    Sync.get_group_name "KN" = "KN" ∧
    (["KN", "KN-1"] : List String).length = 2 := by
  refine ⟨by decide, by decide, by decide⟩

/-- Claim C7 (amended): every sub-column label is assigned to the group
obtained by stripping a trailing "/digits" or "-digits" suffix with an
optional trailing non-digit confirmation character (a label with no such
suffix maps to itself, sharing its group with any other column deriving the
same name); the groups appear in first-seen order and each group lists its
columns in first-seen order: `get_groups` equals the map sending each derived
name, in order of first occurrence, to the columns that strip to it, in
column order. -/
theorem get_groups_characterization :
    (∀ s, Sync.get_group_name s = Sync.specGroupName s) ∧
    (∀ cols, Sync.get_groups cols =
      (dedupExcl [] (cols.map Sync.get_group_name)).map
        (fun g => (g, cols.filter fun c => Sync.get_group_name c == g))) := by
  refine ⟨get_group_name_eq_spec, ?_⟩
  intro cols
  have h := get_groups_go cols []
  simpa [Sync.get_groups] using h

end NLTU
